import Mathlib

/-!
Codex session enumeration (`internal/session/codex.go`): a shallow embedding of
`ListCodexSessions` and the properties of its result.

Go strings are Lean `String`s (read through `String.data`), a `time.Time` is the instant it
denotes (an `Int`), and the two return values of `ListCodexSessions` are a pair
`List CodexSessionInfo × Option GoError`, where `none` is Go's `nil` error.

The file system is an input of the model: `filepath.Walk` sees it as a tree of `Entry`
values (what `os.Lstat` and the directory read answer), and the later `os.Stat` of each
collected path is a separate oracle `String → Option Time`, since the file may have changed or
vanished between the walk and the metadata read.

The regular expression is a list of pattern elements run by a backtracking matcher with the
preference order of Go's `regexp` (leftmost match, greedy repetition).

The library function `sort.Slice` is a parameter `sortSlice` of the model, constrained by the
contract `SortsSlices`; `insertionSort` is the algorithm the library runs on short slices and
is used wherever a result is computed.
-/

namespace Codex

/-! ## Data model -/

/-- The instant a `time.Time` denotes. -/
abbrev Time := Int

/-- Go's `Time.After`: `t.After u` reports whether `t` is later than `u`. -/
def Time.After (t u : Time) : Bool := decide (u < t)

/-- Go's `CodexSessionInfo`. -/
structure CodexSessionInfo where
  SessionID : String
  Filename : String
  LastUpdated : Time
  deriving DecidableEq, Repr

/-- The error values that occur: the two sentinels of `filepath.Walk` and system errors. -/
inductive GoError
  | SkipDir
  | SkipAll
  | ErrNotExist
  | ErrPermission
  | other (msg : String)
  deriving DecidableEq, Repr

/-- The part of `os.FileInfo` the code reads. -/
structure FileInfo where
  Name : String
  IsDir : Bool
  deriving DecidableEq, Repr

/-- What the walk finds at one name of a directory.
* `file name`: `Lstat` succeeds and the entry is not a directory;
* `dir name readErr children`: `Lstat` succeeds and the entry is a directory; reading its
  names fails with `readErr` when that is `some _`, and otherwise yields `children` in order;
* `bad name err`: `Lstat` fails with `err`. -/
inductive Entry
  | file (name : String)
  | dir (name : String) (readErr : Option GoError) (children : List Entry)
  | bad (name : String) (err : GoError)

/-! ## Strings and paths -/

/-- Go's `strings.HasSuffix`. -/
def HasSuffix (s suffix : String) : Bool := suffix.data.isSuffixOf s.data

/-- The last path element of a list of characters without trailing separators: the characters
after the last `/`, scanning from the left and restarting at every separator. -/
def lastElem : List Char → List Char → List Char
  | acc, [] => acc
  | acc, c :: cs => if c = '/' then lastElem [] cs else lastElem (acc ++ [c]) cs

/-- Go's `filepath.Base` (Unix): strips trailing separators, returns the last element, `"."`
for the empty path and `"/"` for a path of separators only. -/
def Base (path : String) : String :=
  if path.data = [] then "."
  else
    let stripped := (path.data.reverse.dropWhile (fun c => c = '/')).reverse
    let last := lastElem [] stripped
    if last = [] then "/" else String.mk last

/-- Go's `filepath.Join` of a clean directory path and a directory entry name. -/
def Join (path name : String) : String := path ++ "/" ++ name

/-! ## The session-ID pattern -/

/-- One element of the pattern: a literal character, `\d`, or the capture group
`([0-9a-f\-]+)`. -/
inductive Tok
  | lit (c : Char)
  | digit
  | idPlus

/-- The class `\d` of Go's regexp: the ASCII digits. -/
def isDigit (c : Char) : Bool := decide ('0' ≤ c) && decide (c ≤ '9')

/-- The class `[0-9a-f\-]`. -/
def isIDChar (c : Char) : Bool :=
  isDigit c || (decide ('a' ≤ c) && decide (c ≤ 'f')) || c == '-'

/-- The literal characters of a string, as pattern elements. -/
def lits (s : String) : List Tok := s.data.map Tok.lit

/-- The element `\d{n}`. -/
def digits (n : Nat) : List Tok := List.replicate n Tok.digit

/-- The regexp
`rollout-\d{4}-\d{2}-\d{2}T\d{2}-\d{2}-\d{2}-([0-9a-f\-]+)\.jsonl`. -/
def sessionIDPattern : List Tok :=
  lits "rollout-" ++ digits 4 ++ lits "-" ++ digits 2 ++ lits "-" ++ digits 2 ++ lits "T" ++
    digits 2 ++ lits "-" ++ digits 2 ++ lits "-" ++ digits 2 ++ lits "-" ++ [Tok.idPlus] ++
    lits ".jsonl"

/-- The greedy repetition of the capture group: having consumed `acc`, consume one more
character of the class, prefer consuming further, and fall back to the continuation `k`.
Returns the text matched from the start of the group on and the text of the group. -/
def plusGreedy (k : List Char → Option (List Char × List Char)) :
    List Char → List Char → Option (List Char × List Char)
  | _, [] => none
  | acc, c :: s =>
    if isIDChar c then
      match plusGreedy k (acc ++ [c]) s with
      | some r => some r
      | none =>
        match k s with
        | some (w, _) => some (acc ++ [c] ++ w, acc ++ [c])
        | none => none
    else none

/-- Match the pattern at the start of the input, in the preference order of a backtracking
matcher. Returns the matched text and the text of capture group 1. -/
def matchHere : List Tok → List Char → Option (List Char × List Char)
  | [], _ => some ([], [])
  | Tok.lit _ :: _, [] => none
  | Tok.lit c :: ts, x :: s =>
    if x = c then
      match matchHere ts s with
      | some (w, g) => some (x :: w, g)
      | none => none
    else none
  | Tok.digit :: _, [] => none
  | Tok.digit :: ts, x :: s =>
    if isDigit x then
      match matchHere ts s with
      | some (w, g) => some (x :: w, g)
      | none => none
    else none
  | Tok.idPlus :: ts, s => plusGreedy (matchHere ts) [] s

/-- The leftmost match: try every start position from the left. -/
def findFrom (re : List Tok) : List Char → Option (List Char × List Char)
  | [] => matchHere re []
  | c :: s =>
    match matchHere re (c :: s) with
    | some r => some r
    | none => findFrom re s

/-- Go's `(*Regexp).FindStringSubmatch` for a pattern with one capture group: `nil` when
nothing matches, otherwise the leftmost match and the text of its group. -/
def FindStringSubmatch (re : List Tok) (s : String) : List String :=
  match findFrom re s.data with
  | none => []
  | some (w, g) => [String.mk w, String.mk g]

/-! ## The directory walk -/

/-- Go's `filepath.WalkFunc`, with the state the closure updates passed explicitly. `info` is
`none` for Go's `nil` file info and `err` is `none` for the `nil` error. -/
abbrev WalkFunc (σ : Type) :=
  String → Option FileInfo → Option GoError → σ → σ × Option GoError

/-- The name of an entry in its directory. -/
def Entry.name : Entry → String
  | Entry.file name => name
  | Entry.dir name _ _ => name
  | Entry.bad name _ => name

/-- Whether `Lstat` of the entry reports a directory. -/
def Entry.IsDir : Entry → Bool
  | Entry.dir _ _ _ => true
  | _ => false

mutual
/-- Go's `filepath.walk` at `path`. `Lstat` names the file info after the last element of the
path it is given. For an entry whose `Lstat` failed the callers of `walk` invoke the callback
themselves with a `nil` info and the error; that call is the `bad` case here. -/
def walk {σ : Type} (walkFn : WalkFunc σ) (path : String) : Entry → σ → σ × Option GoError
  | Entry.file _, st => walkFn path (some { Name := Base path, IsDir := false }) none st
  | Entry.dir _ readErr children, st =>
    match walkFn path (some { Name := Base path, IsDir := true }) readErr st with
    | (st1, err1) =>
      if readErr.isSome || err1.isSome then (st1, err1)
      else walkNames walkFn path children st1
  | Entry.bad _ err, st => walkFn path none (some err) st
/-- The loop of `filepath.walk` over the names of a directory. -/
def walkNames {σ : Type} (walkFn : WalkFunc σ) (path : String) :
    List Entry → σ → σ × Option GoError
  | [], st => (st, none)
  | e :: rest, st =>
    match walk walkFn (Join path e.name) e st with
    | (st1, none) => walkNames walkFn path rest st1
    | (st1, some err) =>
      match e with
      | Entry.bad _ _ =>
        if err ≠ GoError.SkipDir then (st1, some err) else walkNames walkFn path rest st1
      | _ =>
        if !e.IsDir || err ≠ GoError.SkipDir then (st1, some err)
        else walkNames walkFn path rest st1
end

/-- Go's `filepath.Walk`: the sentinels `SkipDir` and `SkipAll` end the walk without error. -/
def Walk {σ : Type} (root : String) (fs : Entry) (walkFn : WalkFunc σ) (st : σ) :
    σ × Option GoError :=
  match walk walkFn root fs st with
  | (st1, err) =>
    if err = some GoError.SkipDir ∨ err = some GoError.SkipAll then (st1, none) else (st1, err)

/-! ## `ListCodexSessions` -/

/-- The closure passed to `filepath.Walk`; the state is the slice `files`. `Walk` never passes
a `nil` info together with a `nil` error. -/
def walkFn : WalkFunc (List String)
  | _, _, some _, files => (files, none)
  | path, some info, none, files =>
    if !info.IsDir && HasSuffix info.Name ".jsonl" then (files ++ [path], none)
    else (files, none)
  | _, none, none, files => (files, none)

/-- The body of the loop over `files` for one `file`: `none` when the iteration ends in
`continue`, otherwise the value appended to `sessions`. `stat` is `os.Stat` followed by
`ModTime`, `none` when `os.Stat` fails. -/
def sessionOf (stat : String → Option Time) (file : String) : Option CodexSessionInfo :=
  let filename := Base file
  let submatches := FindStringSubmatch sessionIDPattern filename
  if submatches.length ≠ 2 then none
  else
    let sessionID := submatches.getD 1 ""
    match stat file with
    | none => none
    | some modTime =>
      some { SessionID := sessionID, Filename := filename, LastUpdated := modTime }

/-- The loop over `files`; `sessions` is the slice built so far. -/
def buildSessions (stat : String → Option Time) :
    List String → List CodexSessionInfo → List CodexSessionInfo
  | [], sessions => sessions
  | file :: rest, sessions =>
    match sessionOf stat file with
    | none => buildSessions stat rest sessions
    | some info => buildSessions stat rest (sessions ++ [info])

/-- The comparison given to `sort.Slice`. -/
def less (a b : CodexSessionInfo) : Bool := a.LastUpdated.After b.LastUpdated

/-- The steps of `ListCodexSessions` after the walk: match, stat and sort. -/
def sessionsOfFiles (sortSlice : (CodexSessionInfo → CodexSessionInfo → Bool) →
    List CodexSessionInfo → List CodexSessionInfo)
    (stat : String → Option Time) (files : List String) : List CodexSessionInfo :=
  sortSlice less (buildSessions stat files [])

/-- Go's `ListCodexSessions`. The inputs are the library sort `sort.Slice`, the directory
`GetCodexSessionsDir` returns, the tree the walk finds there and the later `os.Stat`. -/
def ListCodexSessions (sortSlice : (CodexSessionInfo → CodexSessionInfo → Bool) →
    List CodexSessionInfo → List CodexSessionInfo)
    (sessionsDir : String) (fs : Entry) (stat : String → Option Time) :
    List CodexSessionInfo × Option GoError :=
  match Walk sessionsDir fs walkFn [] with
  | (_, some err) => ([], some err)
  | (files, none) => (sessionsOfFiles sortSlice stat files, none)

/-! ## The library sort -/

/-- The inner loop of Go's `insertionSort_func`: the element `x` moves left while it is less
than its left neighbour. The sorted part is given, and returned, from right to left. -/
def sink {α : Type} (less : α → α → Bool) (x : α) : List α → List α
  | [] => [x]
  | y :: ys => if less x y then y :: sink less x ys else x :: y :: ys

/-- Go's `insertionSort_func`, the algorithm `sort.Slice` runs on a slice of at most 12
elements (of at most 6 elements before Go 1.19). -/
def insertionSort {α : Type} (less : α → α → Bool) (xs : List α) : List α :=
  (xs.foldl (fun sorted x => sink less x sorted) []).reverse

/-- A strict weak ordering, what `sort.Slice` requires of its `less`: asymmetric, and
"not less" is transitive. -/
structure StrictWeakOrder {α : Type} (less : α → α → Bool) : Prop where
  asymm : ∀ a b, less a b = true → less b a = false
  negTrans : ∀ a b c, less a b = false → less b c = false → less a c = false

/-- The contract of the library function `sort.Slice`: the slice is rearranged, and for a
strict weak ordering no later element is less than an earlier one. -/
structure SortsSlices {α : Type} (sortSlice : (α → α → Bool) → List α → List α) : Prop where
  perm : ∀ less xs, (sortSlice less xs).Perm xs
  sorted : ∀ less xs, StrictWeakOrder less →
    (sortSlice less xs).Pairwise (fun a b => less b a = false)

/-! ## The naming convention, in the words of the specification -/

/-- The ASCII digits. -/
def asciiDigits : List Char := "0123456789".data

/-- The characters of an identifier: hexadecimal digits in lower case and the hyphen. -/
def idAlphabet : List Char := "0123456789abcdef-".data

/-- A group of exactly `n` ASCII digits. -/
def IsDigits (n : Nat) (s : List Char) : Prop := s.length = n ∧ ∀ c ∈ s, c ∈ asciiDigits

/-- The timestamp `YYYY-MM-DDTHH-MM-SS`: six fixed-width groups of digits with the literal
separators. -/
def IsTimestamp (ts : List Char) : Prop :=
  ∃ Y M D h m s, IsDigits 4 Y ∧ IsDigits 2 M ∧ IsDigits 2 D ∧ IsDigits 2 h ∧ IsDigits 2 m ∧
    IsDigits 2 s ∧ ts = Y ++ '-' :: M ++ '-' :: D ++ 'T' :: h ++ '-' :: m ++ '-' :: s

/-- An identifier: one or more characters of the identifier alphabet. -/
def IsSessionID (id : List Char) : Prop := id ≠ [] ∧ ∀ c ∈ id, c ∈ idAlphabet

/-- The name `rollout-YYYY-MM-DDTHH-MM-SS-<id>.jsonl`, as a whole string. -/
def IsRolloutName (name id : List Char) : Prop :=
  ∃ ts, IsTimestamp ts ∧ IsSessionID id ∧
    name = "rollout-".data ++ ts ++ '-' :: id ++ ".jsonl".data

/-! ## Auxiliary definitions for the statements -/

mutual
/-- The paths the walk appends to `files` below an entry reached at `path`, read off the tree:
a non-directory with a name ending in `.jsonl`, anywhere below readable directories. -/
def found (path : String) : Entry → List String
  | Entry.file _ => if HasSuffix (Base path) ".jsonl" then [path] else []
  | Entry.dir _ none children => foundNames path children
  | Entry.dir _ (some _) _ => []
  | Entry.bad _ _ => []
/-- The paths the walk appends for the entries of the directory at `path`. -/
def foundNames (path : String) : List Entry → List String
  | [] => []
  | e :: rest => found (Join path e.name) e ++ foundNames path rest
end

/-- The entries of a directory with every failing entry left out, at every depth: an entry
whose `Lstat` fails and a directory that cannot be read are dropped, the latter with all that
is below it. -/
def prune : List Entry → List Entry
  | [] => []
  | Entry.file name :: rest => Entry.file name :: prune rest
  | Entry.dir name none children :: rest => Entry.dir name none (prune children) :: prune rest
  | Entry.dir _ (some _) _ :: rest => prune rest
  | Entry.bad _ _ :: rest => prune rest

/-- A regular file `name` below the chain of readable directories `dirs`. -/
def nestedFile (name : String) : List String → Entry
  | [] => Entry.file name
  | d :: dirs => Entry.dir d none [nestedFile name dirs]

/-- The path of `nestedFile name dirs` when it is an entry of the directory `path`. -/
def nestedPath (path name : String) (dirs : List String) : String :=
  Join (dirs.foldl Join path) name

/-- The regular files of a tree that no failure hides: `FileBelow path es file` holds when
`file` is the path of a non-directory entry of the directory at `path` with entries `es`, or
of a directory reached from it through readable directories only. The other entries of those
directories are arbitrary. -/
inductive FileBelow : String → List Entry → String → Prop
  | here (path : String) (es : List Entry) (name : String) :
    Entry.file name ∈ es → FileBelow path es (Join path name)
  | down (path : String) (es : List Entry) (d : String) (cs : List Entry) (file : String) :
    Entry.dir d none cs ∈ es → FileBelow (Join path d) cs file → FileBelow path es file

/-! ## The matcher and the naming convention -/

theorem isDigit_iff (c : Char) : isDigit c = true ↔ c ∈ asciiDigits := by
  constructor
  · intro h
    simp only [isDigit, Bool.and_eq_true, decide_eq_true_eq, Char.le_def, UInt32.le_def] at h
    obtain ⟨h1, h2⟩ := h
    have h1' : 48 ≤ c.toNat := h1
    have h2' : c.toNat ≤ 57 := h2
    have hc : c = Char.ofNat c.toNat := by simp
    rw [hc]
    generalize c.toNat = n at *
    interval_cases n <;> decide
  · intro h
    simp [asciiDigits] at h
    rcases h with h | h | h | h | h | h | h | h | h | h <;> subst h <;> decide

theorem isIDChar_iff (c : Char) : isIDChar c = true ↔ c ∈ idAlphabet := by
  constructor
  · intro h
    simp only [isIDChar, Bool.or_eq_true, Bool.and_eq_true, decide_eq_true_eq, beq_iff_eq] at h
    rcases h with (h | h) | h
    · have := (isDigit_iff c).1 h
      simp [asciiDigits] at this
      simp [idAlphabet]
      tauto
    · obtain ⟨h1, h2⟩ := h
      have h1' : 97 ≤ c.toNat := h1
      have h2' : c.toNat ≤ 102 := h2
      have hc : c = Char.ofNat c.toNat := by simp
      rw [hc]
      generalize c.toNat = n at *
      interval_cases n <;> decide
    · subst h; decide
  · intro h
    simp [idAlphabet] at h
    rcases h with h | h | h | h | h | h | h | h | h | h | h | h | h | h | h | h | h <;>
      subst h <;> decide

theorem matchHere_lit_iff (c : Char) (ts : List Tok) (s w g : List Char) :
    matchHere (Tok.lit c :: ts) s = some (w, g) ↔
      ∃ s1 w1, s = c :: s1 ∧ w = c :: w1 ∧ matchHere ts s1 = some (w1, g) := by
  cases s with
  | nil => simp [matchHere]
  | cons x s =>
    simp only [matchHere]
    by_cases hx : x = c
    · subst hx
      rw [if_pos rfl]
      constructor
      · intro h
        cases hm : matchHere ts s with
        | none => rw [hm] at h; cases h
        | some r =>
          obtain ⟨w1, g1⟩ := r
          rw [hm] at h
          cases h
          exact ⟨s, w1, rfl, rfl, hm⟩
      · rintro ⟨s1, w1, hs, rfl, h⟩
        cases hs
        rw [h]
    · rw [if_neg hx]
      constructor
      · intro h; cases h
      · rintro ⟨s1, w1, hs, _, _⟩
        cases hs
        exact absurd rfl hx

theorem matchHere_digit_iff (ts : List Tok) (s w g : List Char) :
    matchHere (Tok.digit :: ts) s = some (w, g) ↔
      ∃ c s1 w1, c ∈ asciiDigits ∧ s = c :: s1 ∧ w = c :: w1 ∧ matchHere ts s1 = some (w1, g) := by
  cases s with
  | nil => simp [matchHere]
  | cons x s =>
    simp only [matchHere]
    by_cases hx : isDigit x = true
    · have hx1 := (isDigit_iff x).1 hx
      rw [if_pos hx]
      constructor
      · intro h
        cases hm : matchHere ts s with
        | none => rw [hm] at h; cases h
        | some r =>
          obtain ⟨w1, g1⟩ := r
          rw [hm] at h
          cases h
          exact ⟨x, s, w1, hx1, rfl, rfl, hm⟩
      · rintro ⟨c, s1, w1, _, hs, rfl, h⟩
        cases hs
        rw [h]
    · rw [if_neg hx]
      constructor
      · intro h; cases h
      · rintro ⟨c, s1, w1, hc, hs, _, _⟩
        cases hs
        exact absurd ((isDigit_iff _).2 hc) hx

theorem matchHere_lits_iff (l : List Char) (ts : List Tok) (s w g : List Char) :
    matchHere (List.map Tok.lit l ++ ts) s = some (w, g) ↔
      ∃ s1 w1, s = l ++ s1 ∧ w = l ++ w1 ∧ matchHere ts s1 = some (w1, g) := by
  induction l generalizing s w with
  | nil => simp
  | cons c l ih =>
    simp only [List.map_cons, List.cons_append, matchHere_lit_iff, ih]
    constructor
    · rintro ⟨s1, w1, rfl, rfl, s2, w2, rfl, rfl, h⟩
      exact ⟨s2, w2, rfl, rfl, h⟩
    · rintro ⟨s1, w1, rfl, rfl, h⟩
      exact ⟨_, _, rfl, rfl, s1, w1, rfl, rfl, h⟩

theorem matchHere_digits_iff (n : Nat) (ts : List Tok) (s w g : List Char) :
    matchHere (digits n ++ ts) s = some (w, g) ↔
      ∃ ds s1 w1, IsDigits n ds ∧ s = ds ++ s1 ∧ w = ds ++ w1 ∧
        matchHere ts s1 = some (w1, g) := by
  induction n generalizing s w with
  | zero =>
    simp only [digits, List.replicate_zero, List.nil_append, IsDigits, List.length_eq_zero]
    constructor
    · intro h; exact ⟨[], s, w, ⟨rfl, by simp⟩, rfl, rfl, h⟩
    · rintro ⟨ds, s1, w1, ⟨rfl, _⟩, rfl, rfl, h⟩; exact h
  | succ n ih =>
    have hd : digits (n + 1) ++ ts = Tok.digit :: (digits n ++ ts) := by
      simp [digits, List.replicate_succ]
    rw [hd, matchHere_digit_iff]
    constructor
    · rintro ⟨c, s1, w1, hc, rfl, rfl, h⟩
      obtain ⟨ds, s2, w2, ⟨hlen, hds⟩, rfl, rfl, h2⟩ := (ih _ _).1 h
      refine ⟨c :: ds, s2, w2, ⟨by simp [hlen], ?_⟩, rfl, rfl, h2⟩
      intro x hx
      rcases List.mem_cons.1 hx with rfl | hx
      · exact hc
      · exact hds x hx
    · rintro ⟨ds, s1, w1, ⟨hlen, hds⟩, rfl, rfl, h⟩
      cases ds with
      | nil => simp at hlen
      | cons c ds =>
        refine ⟨c, ds ++ s1, ds ++ w1, hds c (by simp), rfl, rfl, ?_⟩
        exact (ih _ _).2 ⟨ds, s1, w1, ⟨by simpa using hlen, fun x hx => hds x (by simp [hx])⟩,
          rfl, rfl, h⟩

theorem jsonl_iff (s w g : List Char) :
    matchHere (lits ".jsonl") s = some (w, g) ↔
      ∃ rest, s = ".jsonl".data ++ rest ∧ w = ".jsonl".data ∧ g = [] := by
  have h := matchHere_lits_iff ".jsonl".data [] s w g
  simp only [List.append_nil] at h
  rw [lits, h]
  constructor
  · rintro ⟨s1, w1, rfl, rfl, h1⟩
    simp only [matchHere, Option.some.injEq, Prod.mk.injEq] at h1
    obtain ⟨rfl, rfl⟩ := h1
    exact ⟨s1, rfl, by simp, rfl⟩
  · rintro ⟨rest, rfl, rfl, rfl⟩
    exact ⟨rest, [], rfl, by simp, by simp [matchHere]⟩

theorem plusGreedy_iff (acc s w g : List Char) :
    plusGreedy (matchHere (lits ".jsonl")) acc s = some (w, g) ↔
      ∃ id rest, IsSessionID id ∧ s = id ++ ".jsonl".data ++ rest ∧
        w = acc ++ id ++ ".jsonl".data ∧ g = acc ++ id := by
  induction s generalizing acc w g with
  | nil =>
    simp only [plusGreedy]
    constructor
    · intro h; cases h
    · rintro ⟨id, rest, _, hs, _, _⟩
      have := congrArg List.length hs
      simp at this
      omega
  | cons c s ih =>
    simp only [plusGreedy]
    by_cases hc : isIDChar c = true
    · have hc1 := (isIDChar_iff c).1 hc
      rw [if_pos hc]
      constructor
      · intro h
        cases hr : plusGreedy (matchHere (lits ".jsonl")) (acc ++ [c]) s with
        | some r =>
          rw [hr] at h
          cases h
          obtain ⟨id, rest, ⟨_, hid⟩, rfl, rfl, rfl⟩ := (ih _ _ _).1 hr
          refine ⟨c :: id, rest, ⟨by simp, ?_⟩, by simp, by simp, by simp⟩
          intro x hx
          rcases List.mem_cons.1 hx with rfl | hx
          · exact hc1
          · exact hid x hx
        | none =>
          rw [hr] at h
          cases hk : matchHere (lits ".jsonl") s with
          | none => rw [hk] at h; cases h
          | some r =>
            obtain ⟨w1, g1⟩ := r
            rw [hk] at h
            cases h
            obtain ⟨rest, rfl, rfl, rfl⟩ := (jsonl_iff _ _ _).1 hk
            refine ⟨[c], rest, ⟨by simp, ?_⟩, by simp, by simp, by simp⟩
            intro x hx
            rcases List.mem_singleton.1 hx with rfl
            exact hc1
      · rintro ⟨id, rest, ⟨hne, hid⟩, hs, rfl, rfl⟩
        cases id with
        | nil => exact absurd rfl hne
        | cons x id =>
          simp only [List.cons_append, List.cons.injEq] at hs
          obtain ⟨rfl, rfl⟩ := hs
          cases id with
          | nil =>
            have h1 : plusGreedy (matchHere (lits ".jsonl")) (acc ++ [c])
                ([] ++ ".jsonl".data ++ rest) = none := by
              cases hr : plusGreedy (matchHere (lits ".jsonl")) (acc ++ [c])
                ([] ++ ".jsonl".data ++ rest) with
              | none => rfl
              | some r =>
                obtain ⟨w1, g1⟩ := r
                obtain ⟨id2, rest2, ⟨hne2, hid2⟩, hs2, _, _⟩ := (ih _ _ _).1 hr
                cases id2 with
                | nil => exact absurd rfl hne2
                | cons y id2 =>
                  have hy : y = '.' := by
                    have := congrArg List.head? hs2
                    simpa using this.symm
                  have := (isIDChar_iff y).2 (hid2 y (by simp))
                  subst hy
                  exact absurd this (by decide)
            rw [h1]
            have h2 : matchHere (lits ".jsonl") ([] ++ ".jsonl".data ++ rest)
                = some (".jsonl".data, []) :=
              (jsonl_iff _ _ _).2 ⟨rest, by simp, rfl, rfl⟩
            rw [h2]
          | cons y id =>
            have h1 := (ih (acc ++ [c]) (acc ++ [c] ++ (y :: id) ++ ".jsonl".data)
              (acc ++ [c] ++ (y :: id))).2
              ⟨y :: id, rest, ⟨by simp, fun z hz => hid z (by simp [List.mem_cons.1 hz])⟩,
                rfl, rfl, rfl⟩
            rw [h1]
            simp
    · rw [if_neg hc]
      constructor
      · intro h; cases h
      · rintro ⟨id, rest, ⟨hne, hid⟩, hs, _, _⟩
        cases id with
        | nil => exact absurd rfl hne
        | cons x id =>
          simp only [List.cons_append, List.cons.injEq] at hs
          obtain ⟨rfl, _⟩ := hs
          exact absurd ((isIDChar_iff _).2 (hid _ (by simp))) hc

theorem matchHere_str_iff (str : String) (ts : List Tok) (s w g : List Char) :
    matchHere (lits str ++ ts) s = some (w, g) ↔
      ∃ s1 w1, s = str.data ++ s1 ∧ w = str.data ++ w1 ∧ matchHere ts s1 = some (w1, g) :=
  matchHere_lits_iff str.data ts s w g

theorem matchHere_group_iff (s w g : List Char) :
    matchHere ([Tok.idPlus] ++ lits ".jsonl") s = some (w, g) ↔
      ∃ rest, IsSessionID g ∧ s = g ++ ".jsonl".data ++ rest ∧ w = g ++ ".jsonl".data := by
  have h := plusGreedy_iff [] s w g
  simp only [List.nil_append] at h
  have e : matchHere ([Tok.idPlus] ++ lits ".jsonl") s
      = plusGreedy (matchHere (lits ".jsonl")) [] s := by
    simp [matchHere]
  rw [e, h]
  constructor
  · rintro ⟨id, rest, hid, rfl, rfl, rfl⟩
    exact ⟨rest, hid, rfl, rfl⟩
  · rintro ⟨rest, hid, rfl, rfl⟩
    exact ⟨g, rest, hid, rfl, rfl, rfl⟩

/-- The matcher refines the naming convention: the pattern matches at the start of `s` with
matched text `w` and group `g` exactly when `w` is a rollout name with identifier `g` and `s`
starts with `w`. -/
theorem matchHere_pattern_iff (s w g : List Char) :
    matchHere sessionIDPattern s = some (w, g) ↔ IsRolloutName w g ∧ ∃ rest, s = w ++ rest := by
  simp only [sessionIDPattern, List.append_assoc, matchHere_str_iff, matchHere_digits_iff,
    matchHere_group_iff]
  constructor
  · rintro ⟨s1, w1, rfl, rfl, Y, s2, w2, hY, rfl, rfl, s3, w3, rfl, rfl, M, s4, w4, hM, rfl, rfl,
      s5, w5, rfl, rfl, D, s6, w6, hD, rfl, rfl, s7, w7, rfl, rfl, h, s8, w8, hh, rfl, rfl,
      s9, w9, rfl, rfl, m, s10, w10, hm, rfl, rfl, s11, w11, rfl, rfl, sec, s12, w12, hs, rfl, rfl,
      s13, w13, rfl, rfl, rest, hid, rfl, rfl⟩
    refine ⟨⟨Y ++ '-' :: M ++ '-' :: D ++ 'T' :: h ++ '-' :: m ++ '-' :: sec,
      ⟨Y, M, D, h, m, sec, hY, hM, hD, hh, hm, hs, rfl⟩, hid, by simp⟩, rest, by simp⟩
  · rintro ⟨⟨ts, ⟨Y, M, D, h, m, sec, hY, hM, hD, hh, hm, hs, rfl⟩, hid, rfl⟩, rest, rfl⟩
    refine ⟨Y ++ ("-".data ++ (M ++ ("-".data ++ (D ++ ("T".data ++ (h ++ ("-".data ++
        (m ++ ("-".data ++ (sec ++ ("-".data ++ (g ++ ".jsonl".data ++ rest)))))))))))),
      Y ++ ("-".data ++ (M ++ ("-".data ++ (D ++ ("T".data ++ (h ++ ("-".data ++
        (m ++ ("-".data ++ (sec ++ ("-".data ++ (g ++ ".jsonl".data)))))))))))),
      by simp, by simp, Y, _, _, hY, rfl, rfl, _, _, rfl, rfl, M, _, _, hM, rfl, rfl,
      _, _, rfl, rfl, D, _, _, hD, rfl, rfl, _, _, rfl, rfl, h, _, _, hh, rfl, rfl,
      _, _, rfl, rfl, m, _, _, hm, rfl, rfl, _, _, rfl, rfl, sec, _, _, hs, rfl, rfl,
      _, _, rfl, rfl, rest, hid, by simp, by simp⟩

/-! ## The walk -/

mutual
theorem walk_eq (path : String) (e : Entry) (st : List String) :
    walk walkFn path e st = (st ++ found path e, none) := by
  cases e with
  | file name =>
    simp only [walk, walkFn, found]
    by_cases h : HasSuffix (Base path) ".jsonl" = true <;> simp [h]
  | dir name readErr children =>
    cases readErr with
    | none =>
      simp only [walk, walkFn, found]
      simp [walkNames_eq path children st]
    | some err =>
      simp [walk, walkFn, found]
  | bad name err => simp [walk, walkFn, found]
theorem walkNames_eq (path : String) (es : List Entry) (st : List String) :
    walkNames walkFn path es st = (st ++ foundNames path es, none) := by
  cases es with
  | nil => simp [walkNames, foundNames]
  | cons e rest =>
    simp only [walkNames, foundNames]
    rw [walk_eq (Join path e.name) e st]
    simp only []
    rw [walkNames_eq path rest]
    simp
end

theorem Walk_eq (root : String) (fs : Entry) :
    Walk root fs walkFn [] = (found root fs, none) := by
  simp [Walk, walk_eq]

/-! ## The loop and the sort -/

theorem buildSessions_eq (stat : String → Option Time) (files : List String)
    (sessions : List CodexSessionInfo) :
    buildSessions stat files sessions = sessions ++ files.filterMap (sessionOf stat) := by
  induction files generalizing sessions with
  | nil => simp [buildSessions]
  | cons file rest ih =>
    simp only [buildSessions]
    cases h : sessionOf stat file with
    | none => simp [ih, List.filterMap_cons, h]
    | some info => simp [ih, List.filterMap_cons, h]

theorem ListCodexSessions_eq (sortSlice : (CodexSessionInfo → CodexSessionInfo → Bool) →
    List CodexSessionInfo → List CodexSessionInfo)
    (sessionsDir : String) (fs : Entry) (stat : String → Option Time) :
    ListCodexSessions sortSlice sessionsDir fs stat
      = (sortSlice less ((found sessionsDir fs).filterMap (sessionOf stat)), none) := by
  simp [ListCodexSessions, Walk_eq, sessionsOfFiles, buildSessions_eq]

theorem less_strictWeakOrder : StrictWeakOrder less := by
  constructor
  · intro a b h
    simp only [less, Time.After, decide_eq_true_eq, decide_eq_false_iff_not] at *
    exact lt_asymm h
  · intro a b c h1 h2
    simp only [less, Time.After, decide_eq_true_eq, decide_eq_false_iff_not] at *
    exact not_lt.2 (le_trans (not_lt.1 h1) (not_lt.1 h2))

theorem sink_perm {α : Type} (lt : α → α → Bool) (x : α) (ys : List α) :
    (sink lt x ys).Perm (x :: ys) := by
  induction ys with
  | nil => simp [sink]
  | cons y ys ih =>
    simp only [sink]
    split
    · exact (List.Perm.cons y ih).trans (List.Perm.swap x y ys)
    · exact List.Perm.refl _

theorem sink_sorted {α : Type} (lt : α → α → Bool) (hlt : StrictWeakOrder lt) (x : α)
    (ys : List α) (h : ys.Pairwise (fun a b => lt a b = false)) :
    (sink lt x ys).Pairwise (fun a b => lt a b = false) := by
  induction ys with
  | nil => simp [sink]
  | cons y ys ih =>
    simp only [sink]
    rw [List.pairwise_cons] at h
    by_cases hxy : lt x y = true
    · rw [if_pos hxy, List.pairwise_cons]
      refine ⟨?_, ih h.2⟩
      intro z hz
      rcases List.mem_cons.1 ((sink_perm lt x ys).subset hz) with rfl | hz
      · exact hlt.asymm _ _ hxy
      · exact h.1 z hz
    · rw [if_neg hxy, List.pairwise_cons]
      have hxy1 : lt x y = false := by simpa using hxy
      refine ⟨?_, List.pairwise_cons.2 h⟩
      intro z hz
      rcases List.mem_cons.1 hz with rfl | hz
      · exact hxy1
      · exact hlt.negTrans _ _ _ hxy1 (h.1 z hz)

theorem foldl_sink_perm {α : Type} (lt : α → α → Bool) (xs sorted : List α) :
    (xs.foldl (fun sorted x => sink lt x sorted) sorted).Perm (xs.reverse ++ sorted) := by
  induction xs generalizing sorted with
  | nil => simp
  | cons x xs ih =>
    simp only [List.foldl_cons, List.reverse_cons, List.append_assoc, List.singleton_append]
    exact (ih _).trans (List.Perm.append_left _ (sink_perm lt x sorted))

theorem foldl_sink_sorted {α : Type} (lt : α → α → Bool) (hlt : StrictWeakOrder lt)
    (xs sorted : List α) (h : sorted.Pairwise (fun a b => lt a b = false)) :
    (xs.foldl (fun sorted x => sink lt x sorted) sorted).Pairwise (fun a b => lt a b = false) := by
  induction xs generalizing sorted with
  | nil => simpa using h
  | cons x xs ih => exact ih _ (sink_sorted lt hlt x sorted h)

/-- The insertion sort of the library meets the contract of `sort.Slice`. -/
theorem insertionSort_sortsSlices {α : Type} :
    SortsSlices (insertionSort : (α → α → Bool) → List α → List α) := by
  constructor
  · intro lt xs
    unfold insertionSort
    refine (List.reverse_perm _).trans ((foldl_sink_perm lt xs []).trans ?_)
    simp
  · intro lt xs hlt
    unfold insertionSort
    rw [List.pairwise_reverse]
    exact foldl_sink_sorted lt hlt xs [] List.Pairwise.nil

/-! ## Paths -/

theorem lastElem_noSep (acc n : List Char) (hn : '/' ∉ n) : lastElem acc n = acc ++ n := by
  induction n generalizing acc with
  | nil => simp [lastElem]
  | cons c n ih =>
    have hc : c ≠ '/' := fun h => hn (by simp [h])
    have hn1 : '/' ∉ n := fun h => hn (by simp [h])
    simp [lastElem, hc, ih _ hn1]

theorem lastElem_sep (acc xs n : List Char) (hn : '/' ∉ n) :
    lastElem acc (xs ++ '/' :: n) = n := by
  induction xs generalizing acc with
  | nil => simp [lastElem, lastElem_noSep [] n hn]
  | cons x xs ih =>
    by_cases hx : x = '/'
    · simp [lastElem, hx, ih]
    · simp [lastElem, hx, ih]

/-- The last element of a path joined from a directory and a plain name is the name. -/
theorem Base_Join (path name : String) (hne : name.data ≠ []) (hsep : '/' ∉ name.data) :
    Base (Join path name) = name := by
  have hdata : (Join path name).data = path.data ++ '/' :: name.data := by
    simp [Join, String.data_append]
  obtain ⟨init, z, hz⟩ : ∃ init z, name.data = init ++ [z] :=
    ⟨name.data.dropLast, name.data.getLast hne, (List.dropLast_append_getLast hne).symm⟩
  have hzsep : z ≠ '/' := fun h => hsep (by simp [hz, h])
  have hstrip : ((path.data ++ '/' :: name.data).reverse.dropWhile (fun c => c = '/')).reverse
      = path.data ++ '/' :: name.data := by
    rw [hz]
    simp [List.dropWhile, hzsep]
  unfold Base
  rw [hdata]
  simp only [hstrip, lastElem_sep [] path.data name.data hsep]
  simp [hne]

/-! ## One iteration of the loop -/

theorem findFrom_of_matchHere (re : List Tok) (s : List Char) (r : List Char × List Char)
    (h : matchHere re s = some r) : findFrom re s = some r := by
  cases s with
  | nil => simpa [findFrom] using h
  | cons c s => simp [findFrom, h]

theorem findFrom_some (re : List Tok) (s : List Char) (r : List Char × List Char)
    (h : findFrom re s = some r) : ∃ a rest, s = a ++ rest ∧ matchHere re rest = some r := by
  induction s with
  | nil => exact ⟨[], [], rfl, by simpa [findFrom] using h⟩
  | cons c s ih =>
    simp only [findFrom] at h
    cases hm : matchHere re (c :: s) with
    | some r1 =>
      rw [hm] at h
      cases h
      exact ⟨[], c :: s, rfl, hm⟩
    | none =>
      rw [hm] at h
      obtain ⟨a, rest, rfl, hr⟩ := ih h
      exact ⟨c :: a, rest, rfl, hr⟩

theorem sessionOf_of_find (stat : String → Option Time) (file : String) (w g : List Char)
    (t : Time) (hfind : findFrom sessionIDPattern (Base file).data = some (w, g))
    (hstat : stat file = some t) :
    sessionOf stat file
      = some { SessionID := String.mk g, Filename := Base file, LastUpdated := t } := by
  simp [sessionOf, FindStringSubmatch, hfind, hstat]

theorem sessionOf_some (stat : String → Option Time) (file : String) (d : CodexSessionInfo)
    (h : sessionOf stat file = some d) :
    ∃ w g t, findFrom sessionIDPattern (Base file).data = some (w, g) ∧ stat file = some t ∧
      d = { SessionID := String.mk g, Filename := Base file, LastUpdated := t } := by
  cases hfind : findFrom sessionIDPattern (Base file).data with
  | none => simp [sessionOf, FindStringSubmatch, hfind] at h
  | some r =>
    obtain ⟨w, g⟩ := r
    cases hstat : stat file with
    | none => simp [sessionOf, FindStringSubmatch, hfind, hstat] at h
    | some t =>
      rw [sessionOf_of_find stat file w g t hfind hstat] at h
      cases h
      exact ⟨w, g, t, rfl, rfl, rfl⟩

theorem sessionOf_isSome (stat : String → Option Time) (file : String) :
    (sessionOf stat file).isSome = true ↔
      (FindStringSubmatch sessionIDPattern (Base file)).length = 2 ∧ (stat file).isSome = true := by
  cases hfind : findFrom sessionIDPattern (Base file).data with
  | none => simp [sessionOf, FindStringSubmatch, hfind]
  | some r =>
    obtain ⟨w, g⟩ := r
    cases hstat : stat file with
    | none => simp [sessionOf, FindStringSubmatch, hfind, hstat]
    | some t => simp [sessionOf, FindStringSubmatch, hfind, hstat]

theorem sessionOf_rolloutName (stat : String → Option Time) (file : String) (id : List Char)
    (t : Time) (hname : IsRolloutName (Base file).data id) (hstat : stat file = some t) :
    sessionOf stat file
      = some { SessionID := String.mk id, Filename := Base file, LastUpdated := t } := by
  have hm : matchHere sessionIDPattern (Base file).data = some ((Base file).data, id) :=
    (matchHere_pattern_iff _ _ _).2 ⟨hname, [], by simp⟩
  exact sessionOf_of_find stat file _ id t (findFrom_of_matchHere _ _ _ hm) hstat

/-! ## The claims -/

/-- C1: for a file found by the walk whose base name is, as a whole, `rollout-` + timestamp +
`-` + id + `.jsonl` with a non-empty id over `0-9`, `a-f` and `-`, and whose metadata read
succeeds, the loop produces the descriptor with `SessionID` the id in full and `Filename` the
base name in full, and `ListCodexSessions` returns that descriptor. -/
theorem rollout_name_yields_id_and_filename
    (sortSlice : (CodexSessionInfo → CodexSessionInfo → Bool) →
      List CodexSessionInfo → List CodexSessionInfo)
    (hsort : SortsSlices sortSlice) (sessionsDir : String) (fs : Entry)
    (stat : String → Option Time) (file : String) (id : List Char) (modTime : Time)
    (hfile : file ∈ (Walk sessionsDir fs walkFn []).1)
    (hname : IsRolloutName (Base file).data id)
    (hstat : stat file = some modTime) :
    sessionOf stat file
        = some { SessionID := String.mk id, Filename := Base file, LastUpdated := modTime } ∧
      { SessionID := String.mk id, Filename := Base file, LastUpdated := modTime }
        ∈ (ListCodexSessions sortSlice sessionsDir fs stat).1 := by
  have hone := sessionOf_rolloutName stat file id modTime hname hstat
  refine ⟨hone, ?_⟩
  rw [ListCodexSessions_eq]
  rw [Walk_eq] at hfile
  exact (hsort.perm _ _).mem_iff.2 (List.mem_filterMap.2 ⟨file, hfile, hone⟩)

/-- Instance of C1 at a file three directories below the root. -/
theorem rollout_name_yields_id_and_filename_witness :
    sessionOf (fun _ => some 1700000000)
        "/home/u/.codex/sessions/2024/01/15/rollout-2024-01-15T10-30-00-abc123-def456.jsonl"
      = some { SessionID := "abc123-def456",
               Filename := "rollout-2024-01-15T10-30-00-abc123-def456.jsonl",
               LastUpdated := 1700000000 } ∧
    ({ SessionID := "abc123-def456",
       Filename := "rollout-2024-01-15T10-30-00-abc123-def456.jsonl",
       LastUpdated := 1700000000 } : CodexSessionInfo)
      ∈ (ListCodexSessions insertionSort "/home/u/.codex/sessions"
          (Entry.dir "sessions" none [Entry.dir "2024" none [Entry.dir "01" none
            [Entry.dir "15" none
              [Entry.file "rollout-2024-01-15T10-30-00-abc123-def456.jsonl"]]]])
          (fun _ => some 1700000000)).1 :=
  rollout_name_yields_id_and_filename insertionSort insertionSort_sortsSlices
    "/home/u/.codex/sessions"
    (Entry.dir "sessions" none [Entry.dir "2024" none [Entry.dir "01" none
      [Entry.dir "15" none [Entry.file "rollout-2024-01-15T10-30-00-abc123-def456.jsonl"]]]])
    (fun _ => some 1700000000)
    "/home/u/.codex/sessions/2024/01/15/rollout-2024-01-15T10-30-00-abc123-def456.jsonl"
    "abc123-def456".data 1700000000 (by decide)
    ⟨"2024-01-15T10-30-00".data,
      ⟨"2024".data, "01".data, "15".data, "10".data, "30".data, "00".data,
        by unfold IsDigits; decide, by unfold IsDigits; decide, by unfold IsDigits; decide,
        by unfold IsDigits; decide, by unfold IsDigits; decide, by unfold IsDigits; decide,
        by decide⟩,
      by unfold IsSessionID; decide, by decide⟩
    rfl

theorem sortSlice_nil {α : Type} (sortSlice : (α → α → Bool) → List α → List α)
    (hsort : SortsSlices sortSlice) (lt : α → α → Bool) : sortSlice lt [] = [] :=
  List.Perm.eq_nil (hsort.perm lt [])

theorem sortSlice_pair (sortSlice : (CodexSessionInfo → CodexSessionInfo → Bool) →
    List CodexSessionInfo → List CodexSessionInfo) (hsort : SortsSlices sortSlice)
    (a b : CodexSessionInfo) (hab : a.LastUpdated < b.LastUpdated) :
    sortSlice less [a, b] = [b, a] := by
  have hperm := hsort.perm less [a, b]
  have hsorted := hsort.sorted less [a, b] less_strictWeakOrder
  have hlt : less b a = true := by simpa [less, Time.After] using hab
  have hne : a ≠ b := fun h => by rw [h] at hab; exact lt_irrefl _ hab
  have hlen := hperm.length_eq
  match hl : sortSlice less [a, b], hlen with
  | [x, y], _ =>
    rw [hl] at hperm hsorted
    have hx : x = a ∨ x = b := by simpa using hperm.subset (List.mem_cons_self x [y])
    have hb : b = x ∨ b = y := by
      simpa using hperm.symm.subset (show b ∈ [a, b] by simp)
    have ha : a = x ∨ a = y := by
      simpa using hperm.symm.subset (show a ∈ [a, b] by simp)
    have hyx : less y x = false := by simpa using hsorted
    rcases hx with rfl | rfl
    · rcases hb with rfl | rfl
      · exact absurd rfl hne
      · rw [hlt] at hyx; cases hyx
    · rcases ha with rfl | rfl
      · exact absurd rfl hne
      · rfl

/-- C2: the sequence `ListCodexSessions` returns is ordered by `LastUpdated` descending, every
element being no earlier than its successor; in the scenario of the specification (two
rollout files modified at `T1 < T2` beside `notes.txt`) the file modified at `T2` comes
first and `notes.txt` is absent. -/
theorem sorted_most_recent_first
    (sortSlice : (CodexSessionInfo → CodexSessionInfo → Bool) →
      List CodexSessionInfo → List CodexSessionInfo)
    (hsort : SortsSlices sortSlice) (sessionsDir : String) (fs : Entry)
    (stat stat2 : String → Option Time) (T1 T2 : Time) (h12 : T1 < T2)
    (h1 : stat2 (Join sessionsDir "rollout-2024-01-15T10-30-00-abc123-def456.jsonl") = some T1)
    (h2 : stat2 (Join sessionsDir "rollout-2024-01-16T09-00-00-111222-333.jsonl") = some T2) :
    List.Chain' (fun a b => b.LastUpdated ≤ a.LastUpdated)
        (ListCodexSessions sortSlice sessionsDir fs stat).1 ∧
      (ListCodexSessions sortSlice sessionsDir
        (Entry.dir "sessions" none
          [Entry.file "notes.txt",
           Entry.file "rollout-2024-01-15T10-30-00-abc123-def456.jsonl",
           Entry.file "rollout-2024-01-16T09-00-00-111222-333.jsonl"]) stat2).1
        = [{ SessionID := "111222-333",
             Filename := "rollout-2024-01-16T09-00-00-111222-333.jsonl", LastUpdated := T2 },
           { SessionID := "abc123-def456",
             Filename := "rollout-2024-01-15T10-30-00-abc123-def456.jsonl",
             LastUpdated := T1 }] := by
  constructor
  · rw [ListCodexSessions_eq]
    apply List.Pairwise.chain'
    refine (hsort.sorted less _ less_strictWeakOrder).imp ?_
    intro a b hba
    simpa [less, Time.After] using hba
  · rw [ListCodexSessions_eq]
    have b0 : Base (Join sessionsDir "notes.txt") = "notes.txt" :=
      Base_Join _ _ (by decide) (by decide)
    have b1 : Base (Join sessionsDir "rollout-2024-01-15T10-30-00-abc123-def456.jsonl")
        = "rollout-2024-01-15T10-30-00-abc123-def456.jsonl" :=
      Base_Join _ _ (by decide) (by decide)
    have b2 : Base (Join sessionsDir "rollout-2024-01-16T09-00-00-111222-333.jsonl")
        = "rollout-2024-01-16T09-00-00-111222-333.jsonl" :=
      Base_Join _ _ (by decide) (by decide)
    have f1 : findFrom sessionIDPattern "rollout-2024-01-15T10-30-00-abc123-def456.jsonl".data
        = some ("rollout-2024-01-15T10-30-00-abc123-def456.jsonl".data, "abc123-def456".data) := by
      decide
    have f2 : findFrom sessionIDPattern "rollout-2024-01-16T09-00-00-111222-333.jsonl".data
        = some ("rollout-2024-01-16T09-00-00-111222-333.jsonl".data, "111222-333".data) := by
      decide
    have s1 := sessionOf_of_find stat2 _ _ _ T1 (by rw [b1]; exact f1) h1
    have s2 := sessionOf_of_find stat2 _ _ _ T2 (by rw [b2]; exact f2) h2
    rw [b1] at s1
    rw [b2] at s2
    have hs0 : HasSuffix "notes.txt" ".jsonl" = false := by decide
    have hs1 : HasSuffix "rollout-2024-01-15T10-30-00-abc123-def456.jsonl" ".jsonl" = true := by
      decide
    have hs2 : HasSuffix "rollout-2024-01-16T09-00-00-111222-333.jsonl" ".jsonl" = true := by
      decide
    simp only [found, foundNames, Entry.name, b0, b1, b2, hs0, hs1, hs2, if_true,
      List.nil_append, List.append_nil, List.singleton_append, List.filterMap_cons, s1, s2,
      List.filterMap_nil, Bool.false_eq_true, if_false]
    exact sortSlice_pair sortSlice hsort _ _ h12

/-- Instance of C2 at a tree with nested files, and at the scenario with `T1 = 5` and `T2 = 7`. -/
theorem sorted_most_recent_first_witness :
    List.Chain' (fun a b => b.LastUpdated ≤ a.LastUpdated)
        (ListCodexSessions insertionSort "/home/u/.codex/sessions"
          (Entry.dir "sessions" none
            [Entry.dir "2024" none
              [Entry.file "rollout-2024-01-15T10-30-00-abc123-def456.jsonl",
               Entry.file "rollout-2024-03-01T00-00-00-0f.jsonl"],
             Entry.file "rollout-2024-01-16T09-00-00-111222-333.jsonl"])
          (fun p => some p.length)).1 ∧
      (ListCodexSessions insertionSort "/home/u/.codex/sessions"
        (Entry.dir "sessions" none
          [Entry.file "notes.txt",
           Entry.file "rollout-2024-01-15T10-30-00-abc123-def456.jsonl",
           Entry.file "rollout-2024-01-16T09-00-00-111222-333.jsonl"])
        (fun p =>
          if p = "/home/u/.codex/sessions/rollout-2024-01-15T10-30-00-abc123-def456.jsonl"
          then some 5 else some 7)).1
        = [{ SessionID := "111222-333",
             Filename := "rollout-2024-01-16T09-00-00-111222-333.jsonl", LastUpdated := 7 },
           { SessionID := "abc123-def456",
             Filename := "rollout-2024-01-15T10-30-00-abc123-def456.jsonl",
             LastUpdated := 5 }] :=
  sorted_most_recent_first insertionSort insertionSort_sortsSlices "/home/u/.codex/sessions"
    _ (fun p => some p.length)
    (fun p =>
      if p = "/home/u/.codex/sessions/rollout-2024-01-15T10-30-00-abc123-def456.jsonl"
      then some 5 else some 7)
    5 7 (by decide) (by decide) (by decide)

/-- C4 fails on the code: with a root whose `Lstat` is refused for lack of permission the
callback swallows the error, and `ListCodexSessions` returns an empty list with a `nil`
error. -/
theorem root_permission_denied_returns_nil_error :
    ListCodexSessions insertionSort "/home/u/.codex/sessions"
      (Entry.bad "sessions" GoError.ErrPermission) (fun _ => none) = ([], none) := by
  decide

/-- C4 as amended: when `Lstat` of the root fails, for whatever reason, `ListCodexSessions`
returns an empty list and a `nil` error; and it returns a `nil` error on every input. -/
theorem root_error_is_swallowed
    (sortSlice : (CodexSessionInfo → CodexSessionInfo → Bool) →
      List CodexSessionInfo → List CodexSessionInfo)
    (hsort : SortsSlices sortSlice) (sessionsDir name : String) (err : GoError) (fs : Entry)
    (stat : String → Option Time) :
    ListCodexSessions sortSlice sessionsDir (Entry.bad name err) stat = ([], none) ∧
      (ListCodexSessions sortSlice sessionsDir fs stat).2 = none := by
  constructor
  · rw [ListCodexSessions_eq]
    simp [found, sortSlice_nil sortSlice hsort]
  · rw [ListCodexSessions_eq]

/-- Instance of C4 as amended, at a root whose `Lstat` is refused and at a root that cannot be
read. -/
theorem root_error_is_swallowed_witness :
    ListCodexSessions insertionSort "/home/u/.codex/sessions"
        (Entry.bad "sessions" GoError.ErrPermission) (fun _ => some 1) = ([], none) ∧
      (ListCodexSessions insertionSort "/home/u/.codex/sessions"
        (Entry.dir "sessions" (some GoError.ErrPermission)
          [Entry.file "rollout-2024-01-15T10-30-00-abc.jsonl"]) (fun _ => some 1)).2 = none :=
  root_error_is_swallowed insertionSort insertionSort_sortsSlices "/home/u/.codex/sessions"
    "sessions" GoError.ErrPermission _ (fun _ => some 1)

/-- C5: if the root directory does not exist, or exists and has no entries,
`ListCodexSessions` returns a sequence of length zero and a `nil` error. -/
theorem missing_or_empty_root_yields_nothing
    (sortSlice : (CodexSessionInfo → CodexSessionInfo → Bool) →
      List CodexSessionInfo → List CodexSessionInfo)
    (hsort : SortsSlices sortSlice) (sessionsDir name : String)
    (stat : String → Option Time) :
    ListCodexSessions sortSlice sessionsDir (Entry.bad name GoError.ErrNotExist) stat
        = ([], none) ∧
      ListCodexSessions sortSlice sessionsDir (Entry.dir name none []) stat = ([], none) := by
  constructor
  · rw [ListCodexSessions_eq]
    simp [found, sortSlice_nil sortSlice hsort]
  · rw [ListCodexSessions_eq]
    simp [found, foundNames, sortSlice_nil sortSlice hsort]

/-- Instance of C5 at the missing root and the empty root. -/
theorem missing_or_empty_root_yields_nothing_witness :
    ListCodexSessions insertionSort "/home/u/.codex/sessions"
        (Entry.bad "sessions" GoError.ErrNotExist) (fun _ => none) = ([], none) ∧
      ListCodexSessions insertionSort "/home/u/.codex/sessions"
        (Entry.dir "sessions" none []) (fun _ => none) = ([], none) :=
  missing_or_empty_root_yields_nothing insertionSort insertionSort_sortsSlices
    "/home/u/.codex/sessions" "sessions" (fun _ => none)

/-- C6: the result holds exactly one descriptor for each file the walk found whose base name
the pattern accepts and whose `os.Stat` succeeds, and nothing else: it is a permutation of
the descriptors the loop builds file by file, and the loop builds one for a file exactly when
the match has its two submatches and the metadata read succeeds. -/
theorem result_is_permutation_of_descriptors
    (sortSlice : (CodexSessionInfo → CodexSessionInfo → Bool) →
      List CodexSessionInfo → List CodexSessionInfo)
    (hsort : SortsSlices sortSlice) (sessionsDir : String) (fs : Entry)
    (stat : String → Option Time) :
    (ListCodexSessions sortSlice sessionsDir fs stat).1.Perm
        ((Walk sessionsDir fs walkFn []).1.filterMap (sessionOf stat)) ∧
      ∀ file, (sessionOf stat file).isSome = true ↔
        ((FindStringSubmatch sessionIDPattern (Base file)).length = 2 ∧
          (stat file).isSome = true) := by
  constructor
  · rw [ListCodexSessions_eq, Walk_eq]
    exact hsort.perm _ _
  · exact sessionOf_isSome stat

/-- Instance of C6 at a tree with two files of the same identifier and a file whose metadata
read fails. -/
theorem result_is_permutation_of_descriptors_witness :
    (ListCodexSessions insertionSort "/home/u/.codex/sessions"
        (Entry.dir "sessions" none
          [Entry.dir "a" none [Entry.file "rollout-2024-01-15T10-30-00-abc.jsonl"],
           Entry.dir "b" none [Entry.file "rollout-2024-01-15T10-30-00-abc.jsonl"],
           Entry.file "rollout-2024-01-16T09-00-00-111222-333.jsonl"])
        (fun p => if p = "/home/u/.codex/sessions/rollout-2024-01-16T09-00-00-111222-333.jsonl"
          then none else some p.length)).1.Perm
      [{ SessionID := "abc", Filename := "rollout-2024-01-15T10-30-00-abc.jsonl",
         LastUpdated := 63 },
       { SessionID := "abc", Filename := "rollout-2024-01-15T10-30-00-abc.jsonl",
         LastUpdated := 63 }] :=
  (result_is_permutation_of_descriptors insertionSort insertionSort_sortsSlices
    "/home/u/.codex/sessions"
    (Entry.dir "sessions" none
      [Entry.dir "a" none [Entry.file "rollout-2024-01-15T10-30-00-abc.jsonl"],
       Entry.dir "b" none [Entry.file "rollout-2024-01-15T10-30-00-abc.jsonl"],
       Entry.file "rollout-2024-01-16T09-00-00-111222-333.jsonl"])
    (fun p => if p = "/home/u/.codex/sessions/rollout-2024-01-16T09-00-00-111222-333.jsonl"
      then none else some p.length)).1

mutual
theorem found_hasSuffix (path : String) (e : Entry) (file : String)
    (h : file ∈ found path e) : HasSuffix (Base file) ".jsonl" = true := by
  cases e with
  | file name =>
    simp only [found] at h
    by_cases hs : HasSuffix (Base path) ".jsonl" = true
    · rw [if_pos hs] at h
      rw [List.mem_singleton.1 h]
      exact hs
    · rw [if_neg hs] at h
      cases h
  | dir name readErr children =>
    cases readErr with
    | none =>
      simp only [found] at h
      exact foundNames_hasSuffix path children file h
    | some err => simp [found] at h
  | bad name err => simp [found] at h
theorem foundNames_hasSuffix (path : String) (es : List Entry) (file : String)
    (h : file ∈ foundNames path es) : HasSuffix (Base file) ".jsonl" = true := by
  cases es with
  | nil => simp [foundNames] at h
  | cons e rest =>
    simp only [foundNames] at h
    rcases List.mem_append.1 h with h | h
    · exact found_hasSuffix (Join path e.name) e file h
    · exact foundNames_hasSuffix path rest file h
end

theorem mem_result (sortSlice : (CodexSessionInfo → CodexSessionInfo → Bool) →
    List CodexSessionInfo → List CodexSessionInfo) (hsort : SortsSlices sortSlice)
    (sessionsDir : String) (fs : Entry) (stat : String → Option Time) (d : CodexSessionInfo)
    (hd : d ∈ (ListCodexSessions sortSlice sessionsDir fs stat).1) :
    ∃ file, file ∈ found sessionsDir fs ∧ sessionOf stat file = some d := by
  rw [ListCodexSessions_eq] at hd
  exact List.mem_filterMap.1 ((hsort.perm _ _).mem_iff.1 hd)

theorem isRolloutName_iff_matchHere (name id : List Char) :
    IsRolloutName name id ↔ matchHere sessionIDPattern name = some (name, id) := by
  rw [matchHere_pattern_iff]
  constructor
  · intro h; exact ⟨h, [], by simp⟩
  · intro h; exact h.1

/-- C3 fails on the code: the pattern is searched for anywhere in the base name, so a name
with text before `rollout-`, or with text after the first `.jsonl`, is returned although it
does not have the shape as a whole. -/
theorem unanchored_names_are_returned :
    (ListCodexSessions insertionSort "/home/u/.codex/sessions"
        (Entry.dir "sessions" none
          [Entry.file "old-rollout-2024-01-15T10-30-00-abc.jsonl",
           Entry.file "rollout-2024-01-15T10-30-00-abc.jsonl.bak.jsonl"])
        (fun _ => some 1)).1
      = [{ SessionID := "abc", Filename := "old-rollout-2024-01-15T10-30-00-abc.jsonl",
           LastUpdated := 1 },
         { SessionID := "abc", Filename := "rollout-2024-01-15T10-30-00-abc.jsonl.bak.jsonl",
           LastUpdated := 1 }] ∧
      (¬ ∃ id, IsRolloutName "old-rollout-2024-01-15T10-30-00-abc.jsonl".data id) ∧
      (¬ ∃ id, IsRolloutName "rollout-2024-01-15T10-30-00-abc.jsonl.bak.jsonl".data id) := by
  refine ⟨by decide, ?_, ?_⟩
  · rintro ⟨id, h⟩
    have h1 := (isRolloutName_iff_matchHere _ _).1 h
    have h2 : matchHere sessionIDPattern "old-rollout-2024-01-15T10-30-00-abc.jsonl".data
        = none := by decide
    rw [h2] at h1
    cases h1
  · rintro ⟨id, h⟩
    have h1 := (isRolloutName_iff_matchHere _ _).1 h
    have h2 : matchHere sessionIDPattern
        "rollout-2024-01-15T10-30-00-abc.jsonl.bak.jsonl".data
        = some ("rollout-2024-01-15T10-30-00-abc.jsonl".data, "abc".data) := by decide
    rw [h2] at h1
    have h3 : "rollout-2024-01-15T10-30-00-abc.jsonl".data.length
        = "rollout-2024-01-15T10-30-00-abc.jsonl.bak.jsonl".data.length :=
      congrArg (fun r => (r.map (fun p => p.1.length)).getD 0) h1
    revert h3
    decide

/-- C3 as amended: every descriptor returned has a `Filename` that ends in `.jsonl` and
contains, as a contiguous part, a string of the exact shape `rollout-` + timestamp + `-` +
id + `.jsonl` whose id is the descriptor's `SessionID`. -/
theorem filename_contains_rollout_name
    (sortSlice : (CodexSessionInfo → CodexSessionInfo → Bool) →
      List CodexSessionInfo → List CodexSessionInfo)
    (hsort : SortsSlices sortSlice) (sessionsDir : String) (fs : Entry)
    (stat : String → Option Time) (d : CodexSessionInfo)
    (hd : d ∈ (ListCodexSessions sortSlice sessionsDir fs stat).1) :
    HasSuffix d.Filename ".jsonl" = true ∧
      ∃ before part after, d.Filename.data = before ++ part ++ after ∧
        IsRolloutName part d.SessionID.data := by
  obtain ⟨file, hfile, hsome⟩ := mem_result sortSlice hsort sessionsDir fs stat d hd
  obtain ⟨w, g, t, hfind, _, rfl⟩ := sessionOf_some stat file d hsome
  obtain ⟨a, rest, hdata, hm⟩ := findFrom_some _ _ _ hfind
  obtain ⟨hname, after, rfl⟩ := (matchHere_pattern_iff _ _ _).1 hm
  exact ⟨found_hasSuffix sessionsDir fs file hfile, a, w, after,
    by simp [hdata], hname⟩

/-- Instance of C3 as amended, at a returned name with text before `rollout-`. -/
theorem filename_contains_rollout_name_witness :
    HasSuffix "old-rollout-2024-01-15T10-30-00-abc.jsonl" ".jsonl" = true ∧
      ∃ before part after,
        "old-rollout-2024-01-15T10-30-00-abc.jsonl".data = before ++ part ++ after ∧
        IsRolloutName part "abc".data :=
  filename_contains_rollout_name insertionSort insertionSort_sortsSlices
    "/home/u/.codex/sessions"
    (Entry.dir "sessions" none
      [Entry.file "old-rollout-2024-01-15T10-30-00-abc.jsonl",
       Entry.file "rollout-2024-01-15T10-30-00-abc.jsonl.bak.jsonl"])
    (fun _ => some 1)
    { SessionID := "abc", Filename := "old-rollout-2024-01-15T10-30-00-abc.jsonl",
      LastUpdated := 1 }
    (by decide)

theorem IsTimestamp.length_eq {ts : List Char} (h : IsTimestamp ts) : ts.length = 19 := by
  obtain ⟨Y, M, D, hh, m, s, hY, hM, hD, hH, hm, hs, rfl⟩ := h
  simp [hY.1, hM.1, hD.1, hH.1, hm.1, hs.1]

theorem IsTimestamp.mem {ts : List Char} (h : IsTimestamp ts) (c : Char) (hc : c ∈ ts) :
    c ∈ asciiDigits ∨ c = '-' ∨ c = 'T' := by
  obtain ⟨Y, M, D, hh, m, s, hY, hM, hD, hH, hm, hs, rfl⟩ := h
  simp only [List.mem_append, List.mem_cons] at hc
  rcases hc with ((((hc | rfl | hc) | rfl | hc) | rfl | hc) | rfl | hc) | rfl | hc
  · exact Or.inl (hY.2 c hc)
  · exact Or.inr (Or.inl rfl)
  · exact Or.inl (hM.2 c hc)
  · exact Or.inr (Or.inl rfl)
  · exact Or.inl (hD.2 c hc)
  · exact Or.inr (Or.inr rfl)
  · exact Or.inl (hH.2 c hc)
  · exact Or.inr (Or.inl rfl)
  · exact Or.inl (hm.2 c hc)
  · exact Or.inr (Or.inl rfl)
  · exact Or.inl (hs.2 c hc)

/-- The pattern matches nowhere in a name whose identifier part is in upper case. -/
theorem findFrom_uppercase (ts X : List Char) (hts : IsTimestamp ts) (hX : X ≠ [])
    (hupper : ∀ c ∈ X, c ∈ "ABCDEFGHIJKLMNOPQRSTUVWXYZ".data) :
    findFrom sessionIDPattern ("rollout-".data ++ ts ++ '-' :: X ++ ".jsonl".data) = none := by
  cases hfind : findFrom sessionIDPattern ("rollout-".data ++ ts ++ '-' :: X ++ ".jsonl".data) with
  | none => rfl
  | some r =>
    exfalso
    obtain ⟨w, g⟩ := r
    obtain ⟨a, rest, hdata, hm⟩ := findFrom_some _ _ _ hfind
    obtain ⟨⟨ts2, hts2, ⟨hg, hgmem⟩, rfl⟩, after, rfl⟩ := (matchHere_pattern_iff _ _ _).1 hm
    have hr : ∀ c, c ∈ "ollout-".data ++ ts ++ '-' :: X ++ ".jsonl".data → c ≠ 'r' := by
      intro c hc hcr
      subst hcr
      simp only [List.mem_append, List.mem_cons] at hc
      rcases hc with ((hc | hc) | hc | hc) | hc
      · revert hc; decide
      · rcases hts.mem _ hc with h | h | h
        · revert h; decide
        · revert h; decide
        · revert h; decide
      · revert hc; decide
      · have := hupper _ hc
        revert this; decide
      · revert hc; decide
    cases a with
    | cons c a =>
      have htail : "ollout-".data ++ ts ++ '-' :: X ++ ".jsonl".data
          = a ++ ("rollout-".data ++ ts2 ++ '-' :: g ++ ".jsonl".data ++ after) := by
        have := congrArg List.tail hdata
        simpa using this
      exact hr 'r' (by rw [htail]; simp) rfl
    | nil =>
      have h1 : ts ++ ('-' :: X ++ ".jsonl".data)
          = ts2 ++ ('-' :: g ++ ".jsonl".data ++ after) := by
        simpa using hdata
      have h2 := (List.append_inj h1 (by rw [hts.length_eq, hts2.length_eq])).2
      cases X with
      | nil => exact hX rfl
      | cons x X =>
        cases g with
        | nil => exact hg rfl
        | cons y g =>
          have hxy : x = y := by
            have := congrArg (fun l => l.tail.head?) h2
            simpa using this
          have hx := hupper x (by simp)
          have hy := hgmem y (by simp)
          rw [← hxy] at hy
          have hdisj : ∀ c ∈ "ABCDEFGHIJKLMNOPQRSTUVWXYZ".data, c ∉ idAlphabet := by decide
          exact hdisj x hx hy

/-- C9: for a valid timestamp and a non-empty identifier part made of the upper-case letters
`A`-`Z` only, the name `rollout-` + timestamp + `-` + X + `.jsonl` is rejected by the match
and `ListCodexSessions` returns no descriptor with that file name. -/
theorem uppercase_identifier_excluded
    (sortSlice : (CodexSessionInfo → CodexSessionInfo → Bool) →
      List CodexSessionInfo → List CodexSessionInfo)
    (hsort : SortsSlices sortSlice) (sessionsDir : String) (fs : Entry)
    (stat : String → Option Time) (ts X : List Char) (hts : IsTimestamp ts) (hX : X ≠ [])
    (hupper : ∀ c ∈ X, c ∈ "ABCDEFGHIJKLMNOPQRSTUVWXYZ".data) :
    FindStringSubmatch sessionIDPattern
        (String.mk ("rollout-".data ++ ts ++ '-' :: X ++ ".jsonl".data)) = [] ∧
      ∀ d ∈ (ListCodexSessions sortSlice sessionsDir fs stat).1,
        d.Filename ≠ String.mk ("rollout-".data ++ ts ++ '-' :: X ++ ".jsonl".data) := by
  have hnone := findFrom_uppercase ts X hts hX hupper
  constructor
  · simp only [FindStringSubmatch, hnone]
  · intro d hd heq
    obtain ⟨file, _, hsome⟩ := mem_result sortSlice hsort sessionsDir fs stat d hd
    obtain ⟨w, g, t, hfind, _, rfl⟩ := sessionOf_some stat file d hsome
    simp only at heq
    rw [heq, hnone] at hfind
    cases hfind

/-- Instance of C9 at the name `rollout-2024-01-15T10-30-00-ABC.jsonl`. -/
theorem uppercase_identifier_excluded_witness :
    FindStringSubmatch sessionIDPattern "rollout-2024-01-15T10-30-00-ABC.jsonl" = [] ∧
      ∀ d ∈ (ListCodexSessions insertionSort "/home/u/.codex/sessions"
          (Entry.dir "sessions" none
            [Entry.file "rollout-2024-01-15T10-30-00-ABC.jsonl",
             Entry.file "rollout-2024-01-15T10-30-00-abc.jsonl"]) (fun _ => some 1)).1,
        d.Filename ≠ "rollout-2024-01-15T10-30-00-ABC.jsonl" :=
  uppercase_identifier_excluded insertionSort insertionSort_sortsSlices
    "/home/u/.codex/sessions"
    (Entry.dir "sessions" none
      [Entry.file "rollout-2024-01-15T10-30-00-ABC.jsonl",
       Entry.file "rollout-2024-01-15T10-30-00-abc.jsonl"]) (fun _ => some 1)
    "2024-01-15T10-30-00".data "ABC".data
    ⟨"2024".data, "01".data, "15".data, "10".data, "30".data, "00".data,
      by unfold IsDigits; decide, by unfold IsDigits; decide, by unfold IsDigits; decide,
      by unfold IsDigits; decide, by unfold IsDigits; decide, by unfold IsDigits; decide,
      by decide⟩
    (by decide) (by decide)

theorem foundNames_prune (path : String) (es : List Entry) :
    foundNames path (prune es) = foundNames path es := by
  match es with
  | [] => simp [prune]
  | Entry.file name :: rest =>
    simp [prune, foundNames, found, Entry.name, foundNames_prune path rest]
  | Entry.dir name none children :: rest =>
    simp [prune, foundNames, found, Entry.name, foundNames_prune path rest,
      foundNames_prune (Join path name) children]
  | Entry.dir name (some err) children :: rest =>
    simp [prune, foundNames, found, Entry.name, foundNames_prune path rest]
  | Entry.bad name err :: rest =>
    simp [prune, foundNames, found, Entry.name, foundNames_prune path rest]

theorem found_mem_foundNames (path : String) (e : Entry) (es : List Entry) (he : e ∈ es)
    (file : String) (hfile : file ∈ found (Join path e.name) e) :
    file ∈ foundNames path es := by
  induction es with
  | nil => cases he
  | cons x rest ih =>
    simp only [foundNames, List.mem_append]
    rcases List.mem_cons.1 he with rfl | he
    · exact Or.inl hfile
    · exact Or.inr (ih he)

theorem FileBelow.mem_foundNames {path : String} {es : List Entry} {file : String}
    (h : FileBelow path es file) (hs : HasSuffix (Base file) ".jsonl" = true) :
    file ∈ foundNames path es := by
  induction h with
  | here path es name hmem =>
    refine found_mem_foundNames path (Entry.file name) es hmem _ ?_
    simp [found, Entry.name, hs]
  | down path es d cs file hmem _ ih =>
    refine found_mem_foundNames path (Entry.dir d none cs) es hmem _ ?_
    simpa [found, Entry.name] using ih hs

/-- C7: an error reported for one path during the walk is swallowed for that entry only. The
callback leaves `files` as it is and returns `nil`; the result for a root directory is the
result for the same directory with every failing entry, at every depth, left out; and the
walk is not aborted: every regular file with a name ending in `.jsonl` that lies in the root
or below it through readable directories, whatever entries fail beside it or before it, is
discovered, and the descriptor the loop builds for it is returned. -/
theorem failing_entries_are_skipped
    (sortSlice : (CodexSessionInfo → CodexSessionInfo → Bool) →
      List CodexSessionInfo → List CodexSessionInfo)
    (sessionsDir name : String) (children : List Entry) (stat : String → Option Time) :
    (∀ path info err files, walkFn path info (some err) files = (files, none)) ∧
      ListCodexSessions sortSlice sessionsDir (Entry.dir name none children) stat
        = ListCodexSessions sortSlice sessionsDir (Entry.dir name none (prune children)) stat ∧
      (∀ file, FileBelow sessionsDir children file → HasSuffix (Base file) ".jsonl" = true →
        file ∈ (Walk sessionsDir (Entry.dir name none children) walkFn []).1) ∧
      (SortsSlices sortSlice → ∀ file d, FileBelow sessionsDir children file →
        HasSuffix (Base file) ".jsonl" = true → sessionOf stat file = some d →
        d ∈ (ListCodexSessions sortSlice sessionsDir (Entry.dir name none children) stat).1) := by
  refine ⟨?_, ?_, ?_, ?_⟩
  · intro path info err files
    simp [walkFn]
  · rw [ListCodexSessions_eq, ListCodexSessions_eq]
    simp only [found, foundNames_prune]
  · intro file hbelow hs
    rw [Walk_eq]
    simpa [found] using hbelow.mem_foundNames hs
  · intro hsort file d hbelow hs hd
    rw [ListCodexSessions_eq]
    refine (hsort.perm _ _).mem_iff.2 (List.mem_filterMap.2 ⟨file, ?_, hd⟩)
    simpa [found] using hbelow.mem_foundNames hs

/-- Instance of C7 at a root with an entry whose `Lstat` is refused, an unreadable directory,
a file beside them and a file in a readable directory that also holds a failing entry: the
result is that of the pruned tree, and both files are discovered and returned. -/
theorem failing_entries_are_skipped_witness :
    ListCodexSessions insertionSort "/home/u/.codex/sessions"
        (Entry.dir "sessions" none
          [Entry.bad "aaa" GoError.ErrPermission,
           Entry.dir "locked" (some GoError.ErrPermission)
             [Entry.file "rollout-2024-01-15T10-30-00-bbb.jsonl"],
           Entry.file "rollout-2024-01-15T10-30-00-ccc.jsonl",
           Entry.dir "2024" none
             [Entry.bad "gone" GoError.ErrNotExist,
              Entry.file "rollout-2024-01-16T09-00-00-ddd.jsonl"]])
        (fun p => some p.length)
      = ListCodexSessions insertionSort "/home/u/.codex/sessions"
        (Entry.dir "sessions" none
          [Entry.file "rollout-2024-01-15T10-30-00-ccc.jsonl",
           Entry.dir "2024" none [Entry.file "rollout-2024-01-16T09-00-00-ddd.jsonl"]])
        (fun p => some p.length) ∧
    ListCodexSessions insertionSort "/home/u/.codex/sessions"
        (Entry.dir "sessions" none
          [Entry.bad "aaa" GoError.ErrPermission,
           Entry.dir "locked" (some GoError.ErrPermission)
             [Entry.file "rollout-2024-01-15T10-30-00-bbb.jsonl"],
           Entry.file "rollout-2024-01-15T10-30-00-ccc.jsonl",
           Entry.dir "2024" none
             [Entry.bad "gone" GoError.ErrNotExist,
              Entry.file "rollout-2024-01-16T09-00-00-ddd.jsonl"]])
        (fun p => some p.length)
      = ([{ SessionID := "ddd", Filename := "rollout-2024-01-16T09-00-00-ddd.jsonl",
            LastUpdated := 66 },
          { SessionID := "ccc", Filename := "rollout-2024-01-15T10-30-00-ccc.jsonl",
            LastUpdated := 61 }], none) ∧
    "/home/u/.codex/sessions/2024/rollout-2024-01-16T09-00-00-ddd.jsonl"
      ∈ (Walk "/home/u/.codex/sessions"
        (Entry.dir "sessions" none
          [Entry.bad "aaa" GoError.ErrPermission,
           Entry.dir "locked" (some GoError.ErrPermission)
             [Entry.file "rollout-2024-01-15T10-30-00-bbb.jsonl"],
           Entry.file "rollout-2024-01-15T10-30-00-ccc.jsonl",
           Entry.dir "2024" none
             [Entry.bad "gone" GoError.ErrNotExist,
              Entry.file "rollout-2024-01-16T09-00-00-ddd.jsonl"]]) walkFn []).1 ∧
    ({ SessionID := "ccc", Filename := "rollout-2024-01-15T10-30-00-ccc.jsonl",
       LastUpdated := 61 } : CodexSessionInfo)
      ∈ (ListCodexSessions insertionSort "/home/u/.codex/sessions"
        (Entry.dir "sessions" none
          [Entry.bad "aaa" GoError.ErrPermission,
           Entry.dir "locked" (some GoError.ErrPermission)
             [Entry.file "rollout-2024-01-15T10-30-00-bbb.jsonl"],
           Entry.file "rollout-2024-01-15T10-30-00-ccc.jsonl",
           Entry.dir "2024" none
             [Entry.bad "gone" GoError.ErrNotExist,
              Entry.file "rollout-2024-01-16T09-00-00-ddd.jsonl"]])
        (fun p => some p.length)).1 ∧
    ({ SessionID := "ddd", Filename := "rollout-2024-01-16T09-00-00-ddd.jsonl",
       LastUpdated := 66 } : CodexSessionInfo)
      ∈ (ListCodexSessions insertionSort "/home/u/.codex/sessions"
        (Entry.dir "sessions" none
          [Entry.bad "aaa" GoError.ErrPermission,
           Entry.dir "locked" (some GoError.ErrPermission)
             [Entry.file "rollout-2024-01-15T10-30-00-bbb.jsonl"],
           Entry.file "rollout-2024-01-15T10-30-00-ccc.jsonl",
           Entry.dir "2024" none
             [Entry.bad "gone" GoError.ErrNotExist,
              Entry.file "rollout-2024-01-16T09-00-00-ddd.jsonl"]])
        (fun p => some p.length)).1 :=
  have h := failing_entries_are_skipped insertionSort "/home/u/.codex/sessions" "sessions"
    [Entry.bad "aaa" GoError.ErrPermission,
     Entry.dir "locked" (some GoError.ErrPermission)
       [Entry.file "rollout-2024-01-15T10-30-00-bbb.jsonl"],
     Entry.file "rollout-2024-01-15T10-30-00-ccc.jsonl",
     Entry.dir "2024" none
       [Entry.bad "gone" GoError.ErrNotExist,
        Entry.file "rollout-2024-01-16T09-00-00-ddd.jsonl"]]
    (fun p => some p.length)
  have hccc : FileBelow "/home/u/.codex/sessions"
      [Entry.bad "aaa" GoError.ErrPermission,
       Entry.dir "locked" (some GoError.ErrPermission)
         [Entry.file "rollout-2024-01-15T10-30-00-bbb.jsonl"],
       Entry.file "rollout-2024-01-15T10-30-00-ccc.jsonl",
       Entry.dir "2024" none
         [Entry.bad "gone" GoError.ErrNotExist,
          Entry.file "rollout-2024-01-16T09-00-00-ddd.jsonl"]]
      (Join "/home/u/.codex/sessions" "rollout-2024-01-15T10-30-00-ccc.jsonl") :=
    FileBelow.here _ _ _
      (List.mem_cons_of_mem _ (List.mem_cons_of_mem _ (List.mem_cons_self _ _)))
  have hddd : FileBelow "/home/u/.codex/sessions"
      [Entry.bad "aaa" GoError.ErrPermission,
       Entry.dir "locked" (some GoError.ErrPermission)
         [Entry.file "rollout-2024-01-15T10-30-00-bbb.jsonl"],
       Entry.file "rollout-2024-01-15T10-30-00-ccc.jsonl",
       Entry.dir "2024" none
         [Entry.bad "gone" GoError.ErrNotExist,
          Entry.file "rollout-2024-01-16T09-00-00-ddd.jsonl"]]
      (Join (Join "/home/u/.codex/sessions" "2024")
        "rollout-2024-01-16T09-00-00-ddd.jsonl") :=
    FileBelow.down _ _ "2024" _ _
      (List.mem_cons_of_mem _ (List.mem_cons_of_mem _ (List.mem_cons_of_mem _
        (List.mem_cons_self _ _))))
      (FileBelow.here _ _ _ (List.mem_cons_of_mem _ (List.mem_cons_self _ _)))
  ⟨by have h1 := h.2.1; simp only [prune] at h1; exact h1, by decide,
    h.2.2.1 _ hddd (by decide),
    h.2.2.2 insertionSort_sortsSlices _ _ hccc (by decide) (by decide),
    h.2.2.2 insertionSort_sortsSlices _ _ hddd (by decide) (by decide)⟩

theorem found_nestedFile (path name : String) (dirs : List String) :
    foundNames path [nestedFile name dirs]
      = if HasSuffix (Base (nestedPath path name dirs)) ".jsonl" then [nestedPath path name dirs]
        else [] := by
  induction dirs generalizing path with
  | nil => simp [foundNames, found, nestedFile, nestedPath, Entry.name]
  | cons d dirs ih =>
    have h := ih (Join path d)
    simp only [foundNames, found, nestedFile, Entry.name, List.append_nil] at h ⊢
    rw [h]
    simp [nestedPath]

theorem result_nestedFile
    (sortSlice : (CodexSessionInfo → CodexSessionInfo → Bool) →
      List CodexSessionInfo → List CodexSessionInfo)
    (hsort : SortsSlices sortSlice) (sessionsDir rootName name : String) (dirs : List String)
    (stat : String → Option Time) (t : Time)
    (hne : name.data ≠ []) (hsep : '/' ∉ name.data)
    (hstat : stat (nestedPath sessionsDir name dirs) = some t) :
    (ListCodexSessions sortSlice sessionsDir
        (Entry.dir rootName none [nestedFile name dirs]) stat).1
      = if HasSuffix name ".jsonl" = true ∧ (FindStringSubmatch sessionIDPattern name).length = 2
        then [{ SessionID := (FindStringSubmatch sessionIDPattern name).getD 1 "",
                Filename := name, LastUpdated := t }]
        else [] := by
  have hbase : Base (nestedPath sessionsDir name dirs) = name := Base_Join _ _ hne hsep
  rw [ListCodexSessions_eq]
  simp only [found, found_nestedFile, hbase]
  by_cases hs : HasSuffix name ".jsonl" = true
  · by_cases hm : (FindStringSubmatch sessionIDPattern name).length = 2
    · have hone : sessionOf stat (nestedPath sessionsDir name dirs)
          = some { SessionID := (FindStringSubmatch sessionIDPattern name).getD 1 "",
                   Filename := name, LastUpdated := t } := by
        simp [sessionOf, hbase, hm, hstat]
      simp only [hs, hm, if_true, and_self, List.filterMap_cons, hone, List.filterMap_nil]
      exact List.perm_singleton.1 (hsort.perm _ _)
    · have hone : sessionOf stat (nestedPath sessionsDir name dirs) = none := by
        simp [sessionOf, hbase, hm]
      simp only [hs, hm, if_true, and_false, if_false, List.filterMap_cons, hone,
        List.filterMap_nil]
      exact sortSlice_nil sortSlice hsort less
  · simp only [hs, if_false, false_and, List.filterMap_nil, Bool.false_eq_true]
    exact sortSlice_nil sortSlice hsort less

/-- C8: matching and extraction depend on the base name only. A regular file with the plain
name `name`, placed below any two chains of directories under the root (of any depth, zero
included), yields the same `SessionID` and `Filename` at both places, and is accepted at
either place exactly when the name ends in `.jsonl` and the pattern matches the name. -/
theorem depth_does_not_affect_matching
    (sortSlice : (CodexSessionInfo → CodexSessionInfo → Bool) →
      List CodexSessionInfo → List CodexSessionInfo)
    (hsort : SortsSlices sortSlice) (sessionsDir rootName name : String)
    (dirs1 dirs2 : List String) (stat : String → Option Time) (t1 t2 : Time)
    (hne : name.data ≠ []) (hsep : '/' ∉ name.data)
    (h1 : stat (nestedPath sessionsDir name dirs1) = some t1)
    (h2 : stat (nestedPath sessionsDir name dirs2) = some t2) :
    (ListCodexSessions sortSlice sessionsDir
        (Entry.dir rootName none [nestedFile name dirs1]) stat).1.map
        (fun d => (d.SessionID, d.Filename))
      = (ListCodexSessions sortSlice sessionsDir
        (Entry.dir rootName none [nestedFile name dirs2]) stat).1.map
        (fun d => (d.SessionID, d.Filename)) ∧
    ((ListCodexSessions sortSlice sessionsDir
        (Entry.dir rootName none [nestedFile name dirs1]) stat).1 ≠ [] ↔
      (HasSuffix name ".jsonl" = true ∧
        (FindStringSubmatch sessionIDPattern name).length = 2)) := by
  rw [result_nestedFile sortSlice hsort sessionsDir rootName name dirs1 stat t1 hne hsep h1,
    result_nestedFile sortSlice hsort sessionsDir rootName name dirs2 stat t2 hne hsep h2]
  by_cases hacc : HasSuffix name ".jsonl" = true ∧
      (FindStringSubmatch sessionIDPattern name).length = 2
  · simp [hacc]
  · simp [hacc]

/-- Instance of C8 at depth zero and depth three. -/
theorem depth_does_not_affect_matching_witness :
    (ListCodexSessions insertionSort "/home/u/.codex/sessions"
        (Entry.dir "sessions" none
          [nestedFile "rollout-2024-01-15T10-30-00-abc123-def456.jsonl" []])
        (fun p => some p.length)).1.map (fun d => (d.SessionID, d.Filename))
      = (ListCodexSessions insertionSort "/home/u/.codex/sessions"
        (Entry.dir "sessions" none
          [nestedFile "rollout-2024-01-15T10-30-00-abc123-def456.jsonl" ["2024", "01", "15"]])
        (fun p => some p.length)).1.map (fun d => (d.SessionID, d.Filename)) ∧
    ((ListCodexSessions insertionSort "/home/u/.codex/sessions"
        (Entry.dir "sessions" none
          [nestedFile "rollout-2024-01-15T10-30-00-abc123-def456.jsonl" []])
        (fun p => some p.length)).1 ≠ [] ↔
      (HasSuffix "rollout-2024-01-15T10-30-00-abc123-def456.jsonl" ".jsonl" = true ∧
        (FindStringSubmatch sessionIDPattern
          "rollout-2024-01-15T10-30-00-abc123-def456.jsonl").length = 2)) :=
  depth_does_not_affect_matching insertionSort insertionSort_sortsSlices
    "/home/u/.codex/sessions" "sessions" "rollout-2024-01-15T10-30-00-abc123-def456.jsonl"
    [] ["2024", "01", "15"] (fun p => some p.length) 71 82 (by decide) (by decide)
    (by decide) (by decide)

/-- C10 fails on the code: two files with the same modification time come out in the order
in which they were discovered, so permuting the discovered files changes the result. -/
theorem discovery_order_shows_on_ties :
    List.Perm
        ["/home/u/.codex/sessions/b/rollout-2024-01-15T10-30-00-bb.jsonl",
         "/home/u/.codex/sessions/a/rollout-2024-01-15T10-30-00-aa.jsonl"]
        ["/home/u/.codex/sessions/a/rollout-2024-01-15T10-30-00-aa.jsonl",
         "/home/u/.codex/sessions/b/rollout-2024-01-15T10-30-00-bb.jsonl"] ∧
      sessionsOfFiles insertionSort (fun _ => some 1)
          ["/home/u/.codex/sessions/b/rollout-2024-01-15T10-30-00-bb.jsonl",
           "/home/u/.codex/sessions/a/rollout-2024-01-15T10-30-00-aa.jsonl"]
        ≠ sessionsOfFiles insertionSort (fun _ => some 1)
          ["/home/u/.codex/sessions/a/rollout-2024-01-15T10-30-00-aa.jsonl",
           "/home/u/.codex/sessions/b/rollout-2024-01-15T10-30-00-bb.jsonl"] ∧
      sessionsOfFiles insertionSort (fun _ => some 1)
          ["/home/u/.codex/sessions/b/rollout-2024-01-15T10-30-00-bb.jsonl",
           "/home/u/.codex/sessions/a/rollout-2024-01-15T10-30-00-aa.jsonl"]
        = [{ SessionID := "bb", Filename := "rollout-2024-01-15T10-30-00-bb.jsonl",
             LastUpdated := 1 },
           { SessionID := "aa", Filename := "rollout-2024-01-15T10-30-00-aa.jsonl",
             LastUpdated := 1 }] :=
  ⟨List.Perm.swap _ _ _, by decide, by decide⟩

theorem sorted_unique (l1 l2 : List CodexSessionInfo) (hperm : l1.Perm l2)
    (hnodup : (l1.map CodexSessionInfo.LastUpdated).Nodup)
    (h1 : l1.Pairwise (fun a b => less b a = false))
    (h2 : l2.Pairwise (fun a b => less b a = false)) : l1 = l2 := by
  have hnodup2 : (l2.map CodexSessionInfo.LastUpdated).Nodup :=
    (hperm.map _).nodup_iff.1 hnodup
  have strict : ∀ l : List CodexSessionInfo, (l.map CodexSessionInfo.LastUpdated).Nodup →
      l.Pairwise (fun a b => less b a = false) →
      l.Pairwise (fun a b => b.LastUpdated < a.LastUpdated) := by
    intro l hn hp
    have hne : l.Pairwise (fun a b => a.LastUpdated ≠ b.LastUpdated) :=
      List.pairwise_map.1 hn
    refine (hp.and hne).imp ?_
    rintro a b ⟨hle, hab⟩
    have hle1 : ¬ a.LastUpdated < b.LastUpdated := by
      simpa [less, Time.After] using hle
    exact lt_of_le_of_ne (not_lt.1 hle1) (Ne.symm hab)
  haveI : IsAntisymm CodexSessionInfo (fun a b => b.LastUpdated < a.LastUpdated) :=
    ⟨fun a b hab hba => absurd hab (lt_asymm hba)⟩
  exact List.eq_of_perm_of_sorted hperm (strict l1 hnodup h1) (strict l2 hnodup2 h2)

/-- C10 as amended: when the descriptors built from the discovered files have pairwise
distinct modification times, the order of discovery does not affect the result: the
match-stat-sort steps return the same sequence for every permutation of the list of files. -/
theorem discovery_order_irrelevant_without_ties
    (sortSlice : (CodexSessionInfo → CodexSessionInfo → Bool) →
      List CodexSessionInfo → List CodexSessionInfo)
    (hsort : SortsSlices sortSlice) (stat : String → Option Time) (files files2 : List String)
    (hperm : files2.Perm files)
    (hdistinct : ((buildSessions stat files []).map CodexSessionInfo.LastUpdated).Nodup) :
    sessionsOfFiles sortSlice stat files2 = sessionsOfFiles sortSlice stat files := by
  unfold sessionsOfFiles
  rw [buildSessions_eq] at hdistinct ⊢
  rw [buildSessions_eq]
  simp only [List.nil_append] at hdistinct ⊢
  have hp : (files2.filterMap (sessionOf stat)).Perm (files.filterMap (sessionOf stat)) :=
    hperm.filterMap _
  have hp1 := hsort.perm less (files.filterMap (sessionOf stat))
  have hp2 := hsort.perm less (files2.filterMap (sessionOf stat))
  refine sorted_unique _ _ ((hp2.trans hp).trans hp1.symm) ?_
    (hsort.sorted _ _ less_strictWeakOrder) (hsort.sorted _ _ less_strictWeakOrder)
  exact ((hp2.trans hp).map _).nodup_iff.2 hdistinct

/-- Instance of C10 as amended, at two files with different modification times. -/
theorem discovery_order_irrelevant_without_ties_witness :
    sessionsOfFiles insertionSort (fun p => some p.length)
        ["/home/u/.codex/sessions/2024/rollout-2024-01-15T10-30-00-bb.jsonl",
         "/home/u/.codex/sessions/rollout-2024-01-15T10-30-00-aa.jsonl"]
      = sessionsOfFiles insertionSort (fun p => some p.length)
        ["/home/u/.codex/sessions/rollout-2024-01-15T10-30-00-aa.jsonl",
         "/home/u/.codex/sessions/2024/rollout-2024-01-15T10-30-00-bb.jsonl"] :=
  discovery_order_irrelevant_without_ties insertionSort insertionSort_sortsSlices
    (fun p => some p.length) _ _ (List.Perm.swap _ _ _) (by decide)

end Codex
